import Mathlib

/-!
Shallow embedding of `stack.py`: a bounded stack of `CInt` values.

The element type `CInt` (module `c_integer`, not part of the stack code)
is treated as an opaque value type; we model its values as `Int` and its
`min_value` sentinel as a distinguished constant.

Python methods mutate `self` and may raise.  We model every mutating
method as a function from the pre-state to the post-state paired with an
optional error (or an `Except` for methods that also return a value):
the returned `Stack` is the state the Python object holds after the call,
also when the call raised (this is what makes `push_many`'s documented
non-atomic, partial-effect behaviour expressible).
-/

namespace SRPNStack

/-- The error classes raised by `stack.py`.
`StackOverflow` is the spec's `CapacityExceeded` kind, `StackUnderflow`
is `Underflow`, `StackEmpty` is `Empty`, and Python's builtin
`ValueError` (raised by `peek_many` for `n < 1`) is `InvalidArgument`. -/
inductive StackError where
  | StackOverflow
  | StackUnderflow
  | StackEmpty
  | ValueError
  deriving DecidableEq, Repr

/-- Modelled from the spec: `CInt.min_value`, the minimum representable
value of the fixed-width element type `CInt`.  The `c_integer` module is
not part of the stack source; the spec only requires that "a minimum
representable value sentinel of T is obtainable".  We fix the customary
32-bit minimum; none of the properties below depend on the actual value. -/
def CIntMinValue : Int := -(2 ^ 31)

/-- `sys.maxsize`, the default capacity (64-bit platform). -/
def sysMaxsize : Int := 2 ^ 63 - 1

/-- The state of a `Stack` object: `_values` (index 0 = bottom, last
index = top) and `max_size`.  In Python `max_size` is an arbitrary `int`,
so we keep it as `Int`. -/
structure Stack where
  values : List Int
  max_size : Int
  deriving DecidableEq, Repr

namespace Stack

/-- `Stack.count`: `len(self._values)`. -/
def count (s : Stack) : Nat := s.values.length

/-- `Stack.is_empty`: `count == 0`. -/
def is_empty (s : Stack) : Bool := s.count = 0

/-- `Stack.is_full`: `count >= max_size`. -/
def is_full (s : Stack) : Bool := (s.count : Int) ≥ s.max_size

/-- `Stack.show`: the contents, or `[CInt(CInt.min_value)]` when empty. -/
def «show» (s : Stack) : List Int :=
  if s.is_empty then [CIntMinValue] else s.values

/-- `Stack.clear`: remove all items (`max_size` untouched). -/
def clear (s : Stack) : Stack :=
  if s.is_empty then s else { s with values := [] }

/-- `Stack.push`: raises `StackOverflow` if `count >= max_size`
(checked before the append), else appends `value` at the top.
The `isinstance` check cannot fail in the embedding (the element type is
enforced by `Int`), matching the spec's note for statically-typed hosts. -/
def push (s : Stack) (value : Int) : Stack × Option StackError :=
  if (s.count : Int) ≥ s.max_size then (s, some .StackOverflow)
  else ({ s with values := s.values ++ [value] }, none)

/-- `Stack.pop`: raises `StackUnderflow` when empty, else removes and
returns the last element (`self._values.pop(-1)`). -/
def pop (s : Stack) : Stack × Except StackError Int :=
  match s.values.getLast? with
  | none => (s, .error .StackUnderflow)
  | some v => ({ s with values := s.values.dropLast }, .ok v)

/-- `Stack.peek`: raises `StackEmpty` when empty, else returns
`self._values[-1]` without mutation. -/
def peek (s : Stack) : Except StackError Int :=
  match s.values.getLast? with
  | none => .error .StackEmpty
  | some v => .ok v

/-- `Stack.push_many`: `for value in values: self.push(value)`.
On an overflow partway through, the elements already pushed stay in the
stack (the returned state) and the error is reported. -/
def push_many (s : Stack) (vs : List Int) : Stack × Option StackError :=
  match vs with
  | [] => (s, none)
  | v :: rest =>
    match s.push v with
    | (s', none) => s'.push_many rest
    | (s', some e) => (s', some e)

/-- The loop body of `Stack.pop_many`: pop `k` times, collecting the
results in pop order. -/
def popLoop (s : Stack) (k : Nat) : Stack × Except StackError (List Int) :=
  match k with
  | 0 => (s, .ok [])
  | k' + 1 =>
    match s.pop with
    | (s', .ok v) =>
      match s'.popLoop k' with
      | (s'', .ok vs) => (s'', .ok (v :: vs))
      | (s'', .error e) => (s'', .error e)
    | (s', .error e) => (s', .error e)

/-- `Stack.pop_many`: raises `StackUnderflow` if `n > count`, else pops
`n` times (`range(n)` is empty for `n <= 0`, hence `Int.toNat`) and
returns the popped values reversed, i.e. in bottom-to-top order. -/
def pop_many (s : Stack) (n : Int) : Stack × Except StackError (List Int) :=
  if n > (s.count : Int) then (s, .error .StackUnderflow)
  else
    match s.popLoop n.toNat with
    | (s', .ok vs) => (s', .ok vs.reverse)
    | (s', .error e) => (s', .error e)

/-- `Stack.peek_many`: `ValueError` if `n < 1`, `StackUnderflow` if
`n > count`; otherwise the loop
`for i in range(-1, -n - 1, -1): values.insert(0, self._values[i])`
builds, front-insertion by front-insertion, the reversal of the first
`n` elements of the reversed contents. -/
def peek_many (s : Stack) (n : Int) : Except StackError (List Int) :=
  if n < 1 then .error .ValueError
  else if n > (s.count : Int) then .error .StackUnderflow
  else .ok (s.values.reverse.take n.toNat).reverse

end Stack

/-- `Stack.__init__(values, max_size)`:
`self.max_size = max_size if max_size else sys.maxsize` (Python falsiness:
`None` and `0` both select the default), then `push_many` of the initial
values when they are given and non-empty (again falsiness).  Errors from
the initial `push_many` surface to the caller; the partly-built state is
the state the object would hold. -/
def Stack.make (values : Option (List Int)) (max_size : Option Int) :
    Stack × Option StackError :=
  let m : Int :=
    match max_size with
    | none => sysMaxsize
    | some k => if k = 0 then sysMaxsize else k
  let s : Stack := ⟨[], m⟩
  match values with
  | none => (s, none)
  | some vs => if vs = [] then (s, none) else s.push_many vs

/-- The capacity invariant of the spec: `0 <= count <= max_size`
(the lower bound is inherent in `count` being a list length). -/
def Inv (s : Stack) : Prop := (s.count : Int) ≤ s.max_size

instance (s : Stack) : Decidable (Inv s) := by
  unfold Inv; infer_instance

namespace Stack

theorem push_lt (s : Stack) (v : Int) (h : (s.count : Int) < s.max_size) :
    s.push v = ({ s with values := s.values ++ [v] }, none) := by
  rw [push, if_neg (not_le.mpr h)]

theorem push_full (s : Stack) (v : Int) (h : (s.count : Int) ≥ s.max_size) :
    s.push v = (s, some .StackOverflow) := by
  rw [push, if_pos h]

/-- When there is room for all of `vs`, `push_many` appends them all and
reports no error. -/
theorem pushMany_ok (vs : List Int) (s : Stack)
    (h : (s.count : Int) + vs.length ≤ s.max_size) :
    s.push_many vs = ({ s with values := s.values ++ vs }, none) := by
  induction vs generalizing s with
  | nil => simp [push_many]
  | cons v rest ih =>
    have hlt : (s.count : Int) < s.max_size := by
      simp only [List.length_cons] at h; push_cast at h; omega
    rw [push_many, push_lt s v hlt]
    dsimp only
    rw [ih]
    · simp
    · simp only [count, List.length_append, List.length_singleton]
      simp only [count, List.length_cons] at h
      push_cast at h ⊢; omega

/-- When `vs` does not fit, `push_many` appends exactly the first
`max_size - count` elements and reports a `StackOverflow`. -/
theorem pushMany_overflow (vs : List Int) (s : Stack)
    (hinv : (s.count : Int) ≤ s.max_size)
    (h : (s.count : Int) + vs.length > s.max_size) :
    s.push_many vs =
      ({ s with values := s.values ++ vs.take (s.max_size - (s.count : Int)).toNat },
       some .StackOverflow) := by
  induction vs generalizing s with
  | nil =>
    exfalso
    simp only [List.length_nil] at h; omega
  | cons v rest ih =>
    by_cases hfull : (s.count : Int) ≥ s.max_size
    · have h0 : (s.max_size - (s.count : Int)).toNat = 0 := by omega
      rw [push_many, push_full s v hfull, h0]
      simp
    · have hlt : (s.count : Int) < s.max_size := lt_of_not_ge hfull
      rw [push_many, push_lt s v hlt]
      dsimp only
      rw [ih]
      · have ht : (s.max_size - ((s.values.length : Nat) : Int)).toNat
            = (s.max_size - (((s.values.length : Nat) : Int) + 1)).toNat + 1 := by
          simp only [count] at hlt; omega
        simp only [count, List.length_append, List.length_singleton]
        push_cast
        rw [ht, List.take_succ_cons]
        simp [List.append_assoc]
      · simp only [count, List.length_append, List.length_singleton] at hlt ⊢
        push_cast at hlt ⊢; omega
      · simp only [count, List.length_append, List.length_singleton,
          List.length_cons] at h ⊢
        push_cast at h ⊢; omega

theorem pop_concat (base : List Int) (y : Int) (m : Int) :
    Stack.pop ⟨base ++ [y], m⟩ = (⟨base, m⟩, .ok y) := by
  simp [Stack.pop, List.getLast?_concat, List.dropLast_concat]

/-- Popping `extra.length` times from `base ++ extra` removes exactly
`extra`, returning it in pop order (top first, hence reversed). -/
theorem popLoop_append (extra base : List Int) (m : Int) :
    Stack.popLoop ⟨base ++ extra, m⟩ extra.length = (⟨base, m⟩, .ok extra.reverse) := by
  induction extra using List.reverseRecOn with
  | nil => simp [popLoop]
  | append_singleton xs x ih =>
    have hlen : (xs ++ [x]).length = xs.length + 1 := by simp
    rw [hlen, popLoop, ← List.append_assoc, pop_concat]
    dsimp only
    rw [ih]
    simp

theorem popLoop_append_of_length (extra base : List Int) (m : Int) (k : Nat)
    (hk : extra.length = k) :
    Stack.popLoop ⟨base ++ extra, m⟩ k = (⟨base, m⟩, .ok extra.reverse) := by
  subst hk; exact popLoop_append extra base m

/-- When `n ≤ count`, `pop_many` splits the contents: the first
`count - n` stay (in order), the last `n` are returned (in order). -/
theorem popMany_le (vals : List Int) (m : Int) (n : Int)
    (h : n ≤ (vals.length : Int)) :
    Stack.pop_many ⟨vals, m⟩ n =
      (⟨vals.take (vals.length - n.toNat), m⟩,
       .ok (vals.drop (vals.length - n.toNat))) := by
  have hcond : ¬ n > ((Stack.count ⟨vals, m⟩ : Nat) : Int) := by
    simp only [Stack.count]; omega
  rw [Stack.pop_many, if_neg hcond]
  have hsplit : vals.take (vals.length - n.toNat) ++ vals.drop (vals.length - n.toNat)
      = vals := List.take_append_drop _ _
  have hlen : (vals.drop (vals.length - n.toNat)).length = n.toNat := by
    rw [List.length_drop]; omega
  conv_lhs => rw [← hsplit]
  rw [popLoop_append_of_length _ _ _ _ hlen]
  simp

theorem popMany_gt (vals : List Int) (m : Int) (n : Int)
    (h : n > (vals.length : Int)) :
    Stack.pop_many ⟨vals, m⟩ n = (⟨vals, m⟩, .error .StackUnderflow) := by
  have hcond : n > ((Stack.count ⟨vals, m⟩ : Nat) : Int) := by
    simp only [Stack.count]; omega
  rw [Stack.pop_many, if_pos hcond]

end Stack

theorem Inv_push (s : Stack) (v : Int) (h : Inv s) : Inv (s.push v).1 := by
  by_cases hfull : (s.count : Int) ≥ s.max_size
  · rw [Stack.push_full s v hfull]; exact h
  · rw [Stack.push_lt s v (lt_of_not_ge hfull)]
    unfold Inv at *
    simp only [Stack.count, List.length_append, List.length_singleton] at *
    push_cast at *
    omega

theorem Inv_pop (s : Stack) (h : Inv s) : Inv s.pop.1 := by
  obtain ⟨vals, m⟩ := s
  induction vals using List.reverseRecOn with
  | nil => exact h
  | append_singleton xs x _ =>
    rw [Stack.pop_concat]
    unfold Inv at *
    simp only [Stack.count, List.length_append, List.length_singleton] at *
    push_cast at *
    omega

theorem Inv_pushMany (vs : List Int) (s : Stack) (h : Inv s) :
    Inv (s.push_many vs).1 := by
  induction vs generalizing s with
  | nil => exact h
  | cons v rest ih =>
    have hp := Inv_push s v h
    rw [Stack.push_many]
    rcases hps : s.push v with ⟨s', e?⟩
    rw [hps] at hp
    cases e? with
    | none => exact ih s' hp
    | some e => exact hp

theorem Inv_popMany (s : Stack) (n : Int) (h : Inv s) : Inv (s.pop_many n).1 := by
  obtain ⟨vals, m⟩ := s
  by_cases hn : n > (vals.length : Int)
  · rw [Stack.popMany_gt vals m n hn]; exact h
  · rw [Stack.popMany_le vals m n (not_lt.mp hn)]
    unfold Inv at *
    simp only [Stack.count, List.length_take] at *
    omega

theorem Inv_clear (s : Stack) (h : Inv s) : Inv s.clear := by
  unfold Stack.clear
  by_cases he : s.is_empty
  · rw [if_pos he]; exact h
  · rw [if_neg he]
    unfold Inv at *
    simp only [Stack.count, List.length_nil] at *
    omega

theorem clear_max_size (s : Stack) : s.clear.max_size = s.max_size := by
  unfold Stack.clear
  split <;> rfl

/-- The capacity `__init__` actually stores:
`max_size if max_size else sys.maxsize`. -/
def effMax (om : Option Int) : Int :=
  match om with
  | none => sysMaxsize
  | some k => if k = 0 then sysMaxsize else k

/-- `__init__` is: start from the empty stack with the effective
capacity, then `push_many` the initial values (skipping the call when
they are absent or empty changes nothing, as `push_many [] = id`). -/
theorem make_eq_pushMany (ovs : Option (List Int)) (om : Option Int) :
    Stack.make ovs om = Stack.push_many ⟨[], effMax om⟩ (ovs.getD []) := by
  cases ovs with
  | none => rfl
  | some vs =>
    by_cases hvs : vs = []
    · subst hvs; rfl
    · simp only [Stack.make, Option.getD_some, effMax]
      rw [if_neg hvs]

theorem Inv_mkEmpty (m : Int) (hm : 0 ≤ m) : Inv (⟨[], m⟩ : Stack) := by
  unfold Inv
  simp only [Stack.count, List.length_nil]
  omega

theorem effMax_nonneg (om : Option Int) (h : ∀ k, om = some k → 0 ≤ k) :
    0 ≤ effMax om := by
  cases om with
  | none => norm_num [effMax, sysMaxsize]
  | some k =>
    by_cases hk : k = 0
    · simp only [effMax, if_pos hk]; norm_num [sysMaxsize]
    · simp only [effMax, if_neg hk]; exact h k rfl

theorem Inv_make (ovs : Option (List Int)) (om : Option Int)
    (h : ∀ k, om = some k → 0 ≤ k) : Inv (Stack.make ovs om).1 := by
  rw [make_eq_pushMany]
  exact Inv_pushMany _ _ (Inv_mkEmpty _ (effMax_nonneg om h))

theorem make_overflow (vs : List Int) (m : Int) (h0 : 0 < m)
    (h : (vs.length : Int) > m) :
    (Stack.make (some vs) (some m)).2 = some .StackOverflow := by
  rw [make_eq_pushMany]
  have heff : effMax (some m) = m := by
    simp only [effMax]; rw [if_neg (by omega)]
  rw [heff]
  simp only [Option.getD_some]
  have hinv : (((⟨[], m⟩ : Stack).count : Nat) : Int) ≤ (⟨[], m⟩ : Stack).max_size := by
    show ((0 : Nat) : Int) ≤ m
    omega
  have hgt : (((⟨[], m⟩ : Stack).count : Nat) : Int) + (vs.length : Int)
      > (⟨[], m⟩ : Stack).max_size := by
    show ((0 : Nat) : Int) + (vs.length : Int) > m
    omega
  rw [Stack.pushMany_overflow vs _ hinv hgt]

/-- C1: `0 <= count <= max_size` holds at all times (the lower bound is
inherent, `count` being a list length): it holds after construction when
the requested capacity is in the spec's datamodel domain (a nonnegative
integer, or absent/zero which select the default), construction with an
initial sequence longer than a positive `max_size` fails with
`CapacityExceeded` (`StackOverflow`), and the invariant is preserved by
every state-returning operation — `push`, `pop`, `push_many`, `pop_many`
and `clear` (`peek`, `peek_many` and `show` return no state, so there is
nothing to preserve); `clear` leaves `max_size` unchanged. -/
theorem C1_capacity_invariant :
    (∀ (s : Stack) (v : Int) (vs : List Int) (n : Int), Inv s →
       Inv (s.push v).1 ∧ Inv s.pop.1 ∧ Inv (s.push_many vs).1 ∧
       Inv (s.pop_many n).1 ∧ Inv s.clear ∧ s.clear.max_size = s.max_size) ∧
    (∀ (ovs : Option (List Int)) (om : Option Int),
       (∀ k, om = some k → 0 ≤ k) → Inv (Stack.make ovs om).1) ∧
    (∀ (vs : List Int) (m : Int), 0 < m → (vs.length : Int) > m →
       (Stack.make (some vs) (some m)).2 = some .StackOverflow) := by
  refine ⟨fun s v vs n h => ?_, Inv_make, make_overflow⟩
  exact ⟨Inv_push s v h, Inv_pop s h, Inv_pushMany vs s h,
         Inv_popMany s n h, Inv_clear s h, clear_max_size s⟩

theorem C1_capacity_invariant_witness :
    Inv (((⟨[1, 2], 3⟩ : Stack).push 5).1) ∧
    Inv (Stack.make (some [1, 2]) (some 3)).1 ∧
    (Stack.make (some [1, 2, 3, 4]) (some 3)).2 = some .StackOverflow := by
  refine ⟨(C1_capacity_invariant.1 ⟨[1, 2], 3⟩ 5 [] 0 (by decide)).1,
          C1_capacity_invariant.2.1 (some [1, 2]) (some 3) ?_,
          C1_capacity_invariant.2.2 [1, 2, 3, 4] 3 (by decide) (by decide)⟩
  intro k hk
  cases hk
  decide

/-- C2: for a stack with room for all of `V`, pushing `V` in order
succeeds, and then popping `V.length` times returns exactly the elements
of `V` in reverse order (`popLoop` collects repeated `pop` results in
pop order) and restores the original stack, contents and capacity. -/
theorem C2_push_then_pop_roundtrip (s : Stack) (V : List Int)
    (h : (s.count : Int) + V.length ≤ s.max_size) :
    s.push_many V = ({ s with values := s.values ++ V }, none) ∧
    Stack.popLoop { s with values := s.values ++ V } V.length
      = (s, .ok V.reverse) :=
  ⟨Stack.pushMany_ok V s h, Stack.popLoop_append V s.values s.max_size⟩

theorem C2_push_then_pop_roundtrip_witness :
    ((⟨[7], 5⟩ : Stack).count : Int) + (([1, 2] : List Int).length : Int) ≤ 5 ∧
    (⟨[7], 5⟩ : Stack).push_many [1, 2] = (⟨[7, 1, 2], 5⟩, none) ∧
    Stack.popLoop ⟨[7, 1, 2], 5⟩ 2 = (⟨[7], 5⟩, .ok [2, 1]) :=
  ⟨by decide,
   (C2_push_then_pop_roundtrip ⟨[7], 5⟩ [1, 2] (by decide)).1,
   (C2_push_then_pop_roundtrip ⟨[7], 5⟩ [1, 2] (by decide)).2⟩

/-- C3: pushing onto a stack whose `count` equals `max_size` (`is_full`)
fails with `CapacityExceeded` (`StackOverflow`), and the returned state
is the unchanged stack — the capacity check precedes the append, so no
partial insertion occurs. -/
theorem C3_push_on_full (s : Stack) (v : Int)
    (h : (s.count : Int) = s.max_size) :
    s.is_full = true ∧ s.push v = (s, some .StackOverflow) :=
  ⟨by simp [Stack.is_full, h], Stack.push_full s v h.ge⟩

theorem C3_push_on_full_witness :
    (((⟨[1, 2], 2⟩ : Stack).count : Nat) : Int) = 2 ∧
    (⟨[1, 2], 2⟩ : Stack).is_full = true ∧
    (⟨[1, 2], 2⟩ : Stack).push 9 = (⟨[1, 2], 2⟩, some .StackOverflow) :=
  ⟨by decide, (C3_push_on_full ⟨[1, 2], 2⟩ 9 (by decide)).1,
   (C3_push_on_full ⟨[1, 2], 2⟩ 9 (by decide)).2⟩

/-- C4: on an empty stack, `pop` fails with `Underflow`
(`StackUnderflow`) and `peek` fails with the distinct kind `Empty`
(`StackEmpty`), so a caller can tell the two failures apart; in both
cases the stack is unchanged (`pop` returns the same state, `peek`
returns no state at all). -/
theorem C4_empty_pop_peek (s : Stack) (h : s.values = []) :
    s.pop = (s, .error .StackUnderflow) ∧
    s.peek = .error .StackEmpty ∧
    StackError.StackUnderflow ≠ StackError.StackEmpty := by
  obtain ⟨vals, m⟩ := s
  simp only at h
  subst h
  exact ⟨rfl, rfl, by decide⟩

theorem C4_empty_pop_peek_witness :
    (⟨[], 4⟩ : Stack).pop = (⟨[], 4⟩, .error .StackUnderflow) ∧
    (⟨[], 4⟩ : Stack).peek = .error .StackEmpty ∧
    StackError.StackUnderflow ≠ StackError.StackEmpty :=
  C4_empty_pop_peek ⟨[], 4⟩ rfl

/-- C5: `push_many V` on an empty stack with capacity `m ≥ 0` pushes the
elements of `V` in order and is not atomic: when `V` fits, all of it is
pushed and `count = V.length`; when `V.length > m`, the call fails with
`CapacityExceeded` (`StackOverflow`) at the first excess push, and the
first `m` elements of `V` remain in the stack (`count = m`) — no
rollback. -/
theorem C5_pushMany_not_atomic (m : Int) (V : List Int) (hm : 0 ≤ m) :
    ((V.length : Int) ≤ m →
       Stack.push_many ⟨[], m⟩ V = (⟨V, m⟩, none) ∧
       ((⟨V, m⟩ : Stack).count = V.length)) ∧
    ((V.length : Int) > m →
       Stack.push_many ⟨[], m⟩ V = (⟨V.take m.toNat, m⟩, some .StackOverflow) ∧
       (((⟨V.take m.toNat, m⟩ : Stack).count : Nat) : Int) = m) := by
  constructor
  · intro hle
    refine ⟨?_, rfl⟩
    have h : (((⟨[], m⟩ : Stack).count : Nat) : Int) + (V.length : Int)
        ≤ (⟨[], m⟩ : Stack).max_size := by
      show ((0 : Nat) : Int) + (V.length : Int) ≤ m
      omega
    exact Stack.pushMany_ok V ⟨[], m⟩ h
  · intro hgt
    have hinv : (((⟨[], m⟩ : Stack).count : Nat) : Int)
        ≤ (⟨[], m⟩ : Stack).max_size := by
      show ((0 : Nat) : Int) ≤ m
      omega
    have h : (((⟨[], m⟩ : Stack).count : Nat) : Int) + (V.length : Int)
        > (⟨[], m⟩ : Stack).max_size := by
      show ((0 : Nat) : Int) + (V.length : Int) > m
      omega
    refine ⟨?_, ?_⟩
    · have := Stack.pushMany_overflow V ⟨[], m⟩ hinv h
      simpa using this
    · simp only [Stack.count, List.length_take]
      push_cast
      omega

theorem C5_pushMany_not_atomic_witness :
    Stack.push_many ⟨[], 2⟩ [5, 6, 7] = (⟨[5, 6], 2⟩, some .StackOverflow) ∧
    Stack.push_many ⟨[], 3⟩ [5, 6] = (⟨[5, 6], 3⟩, none) :=
  ⟨((C5_pushMany_not_atomic 2 [5, 6, 7] (by decide)).2 (by decide)).1,
   ((C5_pushMany_not_atomic 3 [5, 6] (by decide)).1 (by decide)).1⟩

/-- C6: `pop_many n` fails with `Underflow` (`StackUnderflow`, state
unchanged) exactly when `n` exceeds the current `count`; otherwise it
removes the top `n` elements and returns them in bottom-to-top order
(`drop (count - n)` of the contents, the reverse of pop order), leaving
the remaining `count - n` elements (`take (count - n)`) untouched and in
their original relative order. -/
theorem C6_popMany (s : Stack) (n : Int) :
    (n > (s.count : Int) → s.pop_many n = (s, .error .StackUnderflow)) ∧
    (n ≤ (s.count : Int) →
       s.pop_many n =
         ({ s with values := s.values.take (s.count - n.toNat) },
          .ok (s.values.drop (s.count - n.toNat)))) := by
  obtain ⟨vals, m⟩ := s
  exact ⟨Stack.popMany_gt vals m n, Stack.popMany_le vals m n⟩

theorem C6_popMany_witness :
    (⟨[1, 2, 3], 5⟩ : Stack).pop_many 2 = (⟨[1], 5⟩, .ok [2, 3]) ∧
    (⟨[1, 2, 3], 5⟩ : Stack).pop_many 7 = (⟨[1, 2, 3], 5⟩, .error .StackUnderflow) :=
  ⟨(C6_popMany ⟨[1, 2, 3], 5⟩ 2).2 (by decide),
   (C6_popMany ⟨[1, 2, 3], 5⟩ 7).1 (by decide)⟩

/-- C7: `peek_many n` fails with `InvalidArgument` (`ValueError`) when
`n < 1`, fails with `Underflow` (`StackUnderflow`) when `n > count`, and
otherwise returns the top `n` elements in bottom-to-top order
(`drop (count - n)` of the contents); it never returns a modified stack
— the embedding gives it no state output because the source method does
not mutate. -/
theorem C7_peekMany (s : Stack) (n : Int) :
    (n < 1 → s.peek_many n = .error .ValueError) ∧
    (1 ≤ n → n > (s.count : Int) → s.peek_many n = .error .StackUnderflow) ∧
    (1 ≤ n → n ≤ (s.count : Int) →
       s.peek_many n = .ok (s.values.drop (s.count - n.toNat))) := by
  refine ⟨fun h => ?_, fun h1 h2 => ?_, fun h1 h2 => ?_⟩
  · rw [Stack.peek_many, if_pos h]
  · rw [Stack.peek_many, if_neg (not_lt.mpr h1), if_pos h2]
  · rw [Stack.peek_many, if_neg (not_lt.mpr h1), if_neg (not_lt.mpr h2)]
    rw [List.take_reverse, List.reverse_reverse]
    rfl

theorem C7_peekMany_witness :
    (⟨[4, 5], 9⟩ : Stack).peek_many 0 = .error .ValueError ∧
    (⟨[4, 5], 9⟩ : Stack).peek_many 3 = .error .StackUnderflow ∧
    (⟨[4, 5], 9⟩ : Stack).peek_many 2 = .ok [4, 5] :=
  ⟨(C7_peekMany ⟨[4, 5], 9⟩ 0).1 (by decide),
   (C7_peekMany ⟨[4, 5], 9⟩ 3).2.1 (by decide) (by decide),
   (C7_peekMany ⟨[4, 5], 9⟩ 2).2.2 (by decide) (by decide)⟩

/-- C8: `show()` on an empty stack returns the single-element sentinel
sequence `[CInt.min_value]` rather than an empty sequence; on a
non-empty stack it returns the full contents bottom-to-top, and being a
pure query it does not modify the stack. -/
theorem C8_show (s : Stack) :
    (s.values = [] → s.«show» = [CIntMinValue]) ∧
    (s.values ≠ [] → s.«show» = s.values) := by
  constructor
  · intro h
    obtain ⟨vals, m⟩ := s
    simp only at h
    subst h
    rfl
  · intro h
    have he : s.is_empty = false := by
      simp [Stack.is_empty, Stack.count, List.length_eq_zero, h]
    rw [Stack.«show», he]
    simp

theorem C8_show_witness :
    (⟨[], 5⟩ : Stack).«show» = [CIntMinValue] ∧
    (⟨[3], 5⟩ : Stack).«show» = [3] :=
  ⟨(C8_show ⟨[], 5⟩).1 rfl, (C8_show ⟨[3], 5⟩).2 (by decide)⟩

/-- C9: constructing with `max_size = 0` does not give a zero-capacity
stack: Python falsiness replaces both `0` and an unspecified `max_size`
by `sys.maxsize`, so the resulting stack is effectively unbounded and a
subsequent push succeeds instead of failing with `CapacityExceeded`. -/
theorem C9_zero_capacity_defaults (v : Int) :
    (Stack.make none (some 0)).1.max_size = sysMaxsize ∧
    (Stack.make none none).1.max_size = sysMaxsize ∧
    (Stack.make none (some 0)).1.push v = (⟨[v], sysMaxsize⟩, none) := by
  refine ⟨rfl, rfl, ?_⟩
  show (⟨[], sysMaxsize⟩ : Stack).push v = (⟨[v], sysMaxsize⟩, none)
  rw [Stack.push_lt _ _ (by decide)]
  rfl

/-- C10: `pop_many n` raises `Underflow` exactly when `n > count`; in
particular every `n ≤ 0` (negative included) raises nothing — the
`range(n)` loop is empty, so it returns the empty sequence with the
stack unchanged — even though `peek_many` rejects the same arguments
with `InvalidArgument` (`ValueError`). -/
theorem C10_popMany_nonpositive (s : Stack) (n : Int) :
    ((s.pop_many n).2 = .error .StackUnderflow ↔ n > (s.count : Int)) ∧
    (n ≤ 0 → s.pop_many n = (s, .ok [])) ∧
    (n ≤ 0 → s.peek_many n = .error .ValueError) := by
  obtain ⟨vals, m⟩ := s
  refine ⟨⟨fun h => ?_, fun h => ?_⟩, fun h => ?_, fun h => ?_⟩
  · by_cases hgt : n > (vals.length : Int)
    · exact hgt
    · rw [Stack.popMany_le vals m n (not_lt.mp hgt)] at h
      simp at h
  · rw [Stack.popMany_gt vals m n h]
  · have hle : n ≤ (vals.length : Int) := le_trans h (Int.natCast_nonneg _)
    have h0 : vals.length - n.toNat = vals.length := by omega
    rw [Stack.popMany_le vals m n hle, h0, List.take_length, List.drop_length]
  · rw [Stack.peek_many, if_pos (by omega : n < 1)]

theorem C10_popMany_nonpositive_witness :
    (⟨[5], 9⟩ : Stack).pop_many (-1) = (⟨[5], 9⟩, .ok []) ∧
    (⟨[5], 9⟩ : Stack).peek_many (-1) = .error .ValueError :=
  ⟨(C10_popMany_nonpositive ⟨[5], 9⟩ (-1)).2.1 (by decide),
   (C10_popMany_nonpositive ⟨[5], 9⟩ (-1)).2.2 (by decide)⟩

end SRPNStack
